import Mathlib

/-!
# Verification of `lambda_function.py` (upwork-skills-insight)

A shallow embedding of the single source file `src/lambda_function.py`.
Strings are modelled as `List Char` (Python `str`), bytes as `List Nat`
(each element < 256).  External library calls (`urllib.parse.unquote`,
`json.dumps`, `gzip.compress`/`decompress`, UTF-8 codecs) are modelled
faithfully at the level of their documented behaviour on text values.
-/

namespace Upwork

/-! ## Python string primitives -/

/-- First-occurrence split: `s.split(sep, 1)` in Python returns `[s]` when
`sep` does not occur, otherwise the pair of the part before the first
occurrence and the part after it.  `splitFirst sep s = none` models the
one-element case, `some (before, after)` the two-element case. -/
def splitFirst (sep : List Char) : List Char → Option (List Char × List Char)
  | [] => if sep.isPrefixOf ([] : List Char) then some ([], []) else none
  | c :: rest =>
    if sep.isPrefixOf (c :: rest) then some ([], (c :: rest).drop sep.length)
    else (splitFirst sep rest).map (fun p => (c :: p.1, p.2))

/-- `sep` occurs as a contiguous substring of `s`. -/
def hasSub (sep s : List Char) : Bool := (splitFirst sep s).isSome

/-- Unlimited split on a single comma: Python `s.split(",")`.
`"".split(",") = [""]` and a trailing comma yields a trailing `""`. -/
def splitComma : List Char → List (List Char)
  | [] => [[]]
  | c :: rest =>
    if c = ',' then [] :: splitComma rest
    else
      match splitComma rest with
      | [] => [[c]]
      | t :: ts => (c :: t) :: ts

/-- Python `str.isspace` on a single character (the set stripped by
`str.strip()` with no argument). -/
def isPySpace (c : Char) : Bool :=
  let n := c.toNat
  (0x09 ≤ n ∧ n ≤ 0x0D) ∨ (0x1C ≤ n ∧ n ≤ 0x1F) ∨ n = 0x20 ∨ n = 0x85 ∨
    n = 0xA0 ∨ n = 0x1680 ∨ (0x2000 ≤ n ∧ n ≤ 0x200A) ∨ n = 0x2028 ∨
    n = 0x2029 ∨ n = 0x202F ∨ n = 0x205F ∨ n = 0x3000

/-- Python `s.strip()`: drop leading and trailing whitespace. -/
def pyStrip (s : List Char) : List Char :=
  ((s.dropWhile isPySpace).reverse.dropWhile isPySpace).reverse

/-! ## UTF-8 decoding (used by `unquote` and by reading the archive back) -/

/-- The Unicode replacement character U+FFFD, emitted for invalid byte
sequences (Python codec error handler `errors="replace"`). -/
def replChar : Char := Char.ofNat 0xFFFD

/-- `b` is a UTF-8 continuation byte `10xxxxxx`. -/
def isCont (b : Nat) : Bool := 0x80 ≤ b ∧ b < 0xC0

/-- Fuelled UTF-8 decoder with replacement on error, modelling
`bytes.decode("utf-8", errors="replace")` byte-run behaviour.  Each step
consumes at least one byte, so fuel equal to the input length (supplied
by `utf8Decode`) never runs out; the fuel only serves structural
termination. -/
def utf8DecodeF : Nat → List Nat → List Char
  | 0, _ => []
  | _ + 1, [] => []
  | fuel + 1, b :: rest =>
    if b < 0x80 then Char.ofNat b :: utf8DecodeF fuel rest
    else if b < 0xC2 then replChar :: utf8DecodeF fuel rest
    else if b < 0xE0 then
      match rest with
      | b2 :: r2 =>
        if isCont b2 then
          Char.ofNat ((b - 0xC0) * 64 + (b2 - 0x80)) :: utf8DecodeF fuel r2
        else replChar :: utf8DecodeF fuel (b2 :: r2)
      | [] => [replChar]
    else if b < 0xF0 then
      match rest with
      | b2 :: b3 :: r3 =>
        if isCont b2 ∧ isCont b3 then
          let n := (b - 0xE0) * 4096 + (b2 - 0x80) * 64 + (b3 - 0x80)
          if 0x800 ≤ n ∧ (n < 0xD800 ∨ 0xDFFF < n) then
            Char.ofNat n :: utf8DecodeF fuel r3
          else replChar :: utf8DecodeF fuel (b2 :: b3 :: r3)
        else replChar :: utf8DecodeF fuel (b2 :: b3 :: r3)
      | [b2] => replChar :: utf8DecodeF fuel [b2]
      | [] => [replChar]
    else if b < 0xF5 then
      match rest with
      | b2 :: b3 :: b4 :: r4 =>
        if isCont b2 ∧ isCont b3 ∧ isCont b4 then
          let n := (b - 0xF0) * 0x40000 + (b2 - 0x80) * 4096 +
            (b3 - 0x80) * 64 + (b4 - 0x80)
          if 0x10000 ≤ n ∧ n < 0x110000 then Char.ofNat n :: utf8DecodeF fuel r4
          else replChar :: utf8DecodeF fuel (b2 :: b3 :: b4 :: r4)
        else replChar :: utf8DecodeF fuel (b2 :: b3 :: b4 :: r4)
      | [b2, b3] => replChar :: utf8DecodeF fuel [b2, b3]
      | [b2] => replChar :: utf8DecodeF fuel [b2]
      | [] => [replChar]
    else replChar :: utf8DecodeF fuel rest

/-- UTF-8 decoding of a byte sequence. -/
def utf8Decode (bs : List Nat) : List Char := utf8DecodeF bs.length bs

/-! ## `urllib.parse.unquote` -/

/-- Value of a hexadecimal digit character, or `none`. -/
def hexVal (c : Char) : Option Nat :=
  if '0' ≤ c ∧ c ≤ '9' then some (c.toNat - '0'.toNat)
  else if 'a' ≤ c ∧ c ≤ 'f' then some (c.toNat - 'a'.toNat + 10)
  else if 'A' ≤ c ∧ c ≤ 'F' then some (c.toNat - 'A'.toNat + 10)
  else none

/-- Tokenise a percent-encoded string: each valid `%HH` becomes a byte
(`Sum.inr`), everything else passes through as a character (`Sum.inl`).
An invalid escape leaves the `%` literal, as `urllib.parse.unquote` does. -/
def pctUnits : List Char → List (Sum Char Nat)
  | [] => []
  | '%' :: a :: b :: rest =>
    match hexVal a, hexVal b with
    | some x, some y => Sum.inr (x * 16 + y) :: pctUnits rest
    | _, _ => Sum.inl '%' :: pctUnits (a :: b :: rest)
  | c :: rest => Sum.inl c :: pctUnits rest

/-- Decode tokenised units: maximal runs of bytes are UTF-8 decoded
together (Python decodes each contiguous `%`-escape run as one byte
string), plain characters pass through.  `acc` is the reversed pending
byte run. -/
def decodeUnits : List (Sum Char Nat) → List Nat → List Char
  | [], acc => utf8Decode acc.reverse
  | Sum.inl c :: rest, acc => utf8Decode acc.reverse ++ c :: decodeUnits rest []
  | Sum.inr b :: rest, acc => decodeUnits rest (b :: acc)

/-- `urllib.parse.unquote` with the default UTF-8/`replace` handling. -/
def unquote (s : List Char) : List Char := decodeUnits (pctUnits s) []

/-! ## The skill extractor (`get_skills`, lines 43–81) -/

/-- The literal marker `Skills</b>:` searched for at line 54. -/
def markerL : List Char := "Skills</b>:".data

/-- The literal line-break tag `<br />` of line 60. -/
def brL : List Char := "<br />".data

/-- Line 60: `skills.split("<br />", 1)[0]` — the part of the text after
the marker that precedes the first `<br />`, or the whole text when no
`<br />` occurs (Python's one-element split result, index 0). -/
def keepBeforeBr (afterMarker : List Char) : List Char :=
  match splitFirst brL afterMarker with
  | none => afterMarker
  | some (before, _) => before

/-- The loop body of `get_skills` for one item's encoded content
(lines 51–79): split at the first `Skills</b>:` (a missing marker raises
`IndexError`, caught: the item contributes nothing and the loop
continues); keep the part before the first `<br />`; split on commas;
URL-decode and strip each token.  The `AttributeError`/`TypeError`
handlers of lines 61–66 and 70–75 cannot fire on a text value, so on
text the only skip condition is the missing marker. -/
def itemSkills (content_encoded : List Char) : List (List Char) :=
  match splitFirst markerL content_encoded with
  | none => []
  | some (_, afterMarker) =>
    let skills := keepBeforeBr afterMarker
    (splitComma skills).map (fun skill => pyStrip (unquote skill))

/-- One `<item>` of the feed, exposing its encoded-content text
(`item.encoded.get_text()`, line 51). -/
structure Item where
  encoded : List Char
deriving DecidableEq

/-- The channel metadata read at lines 110–113. -/
structure Channel where
  title : List Char
  link : List Char
  description : List Char
  pubDate : List Char
deriving DecidableEq

/-- The parsed feed document (`BeautifulSoup` object): a channel and an
ordered sequence of items (`rss.find_all("item")`, line 50). -/
structure Doc where
  channel : Channel
  items : List Item
deriving DecidableEq

/-- `get_skills` (lines 43–81): iterate the items in feed order,
appending each item's tokens to one flat result list. -/
def get_skills (rss : Doc) : List (List Char) :=
  rss.items.flatMap (fun item => itemSkills item.encoded)

/-! ## The feed fetcher (`get_rss`, lines 24–40) -/

/-- One HTTP response: its status code and the document the body parses
to (`BeautifulSoup(response.content, "lxml")`, an external parser). -/
structure Response where
  status_code : Nat
  body : Doc

/-- `get_rss` (lines 24–40): return the parsed document on status 200,
`False` (here `none`) on any other status. -/
def get_rss (resp : Response) : Option Doc :=
  if resp.status_code = 200 then some resp.body else none

/-! ## `json.dumps` (line 122) -/

/-- The content dictionary assembled at lines 115–121. -/
structure ContentRecord where
  title : List Char
  link : List Char
  description : List Char
  pubdate : List Char
  skills : List (List Char)
deriving DecidableEq

/-- Lower-case hexadecimal digit character for `d < 16`. -/
def hexDigitChar (d : Nat) : Char :=
  if d < 10 then Char.ofNat ('0'.toNat + d) else Char.ofNat ('a'.toNat + d - 10)

/-- Four-digit lower-case hex rendering of `n < 0x10000`, as in JSON
`\uXXXX` escapes. -/
def hex4 (n : Nat) : List Char :=
  [hexDigitChar (n / 4096), hexDigitChar (n / 256 % 16),
   hexDigitChar (n / 16 % 16), hexDigitChar (n % 16)]

/-- `json.dumps` escaping of one character with the default
`ensure_ascii=True`: printable ASCII other than `"` and `\` passes
through, the named escapes cover the usual controls, every other
character becomes `\uXXXX` (a surrogate pair beyond the BMP). -/
def escChar (c : Char) : List Char :=
  if c = '"' then ['\\', '"']
  else if c = '\\' then ['\\', '\\']
  else if c = Char.ofNat 0x08 then ['\\', 'b']
  else if c = Char.ofNat 0x0C then ['\\', 'f']
  else if c = '\n' then ['\\', 'n']
  else if c = '\r' then ['\\', 'r']
  else if c = '\t' then ['\\', 't']
  else if c.toNat < 0x20 then '\\' :: 'u' :: hex4 c.toNat
  else if c.toNat < 0x7F then [c]
  else if c.toNat < 0x10000 then '\\' :: 'u' :: hex4 c.toNat
  else
    '\\' :: 'u' :: hex4 (0xD800 + (c.toNat - 0x10000) / 0x400) ++
      '\\' :: 'u' :: hex4 (0xDC00 + (c.toNat - 0x10000) % 0x400)

/-- A JSON string literal: `"` + escaped body + `"`. -/
def jstr (s : List Char) : List Char := '"' :: s.flatMap escChar ++ ['"']

/-- Join with the default `json.dumps` item separator `", "`. -/
def joinComma : List (List Char) → List Char
  | [] => []
  | [x] => x
  | x :: y :: rest => x ++ ',' :: ' ' :: joinComma (y :: rest)

/-- `json.dumps(content)` for the dictionary of lines 115–121, with the
default separators `(", ", ": ")` and insertion key order
`title, link, description, pubdate, skills`. -/
def dumps (r : ContentRecord) : List Char :=
  '{' :: jstr "title".data ++ ':' :: ' ' :: jstr r.title ++ ',' :: ' ' ::
  jstr "link".data ++ ':' :: ' ' :: jstr r.link ++ ',' :: ' ' ::
  jstr "description".data ++ ':' :: ' ' :: jstr r.description ++ ',' :: ' ' ::
  jstr "pubdate".data ++ ':' :: ' ' :: jstr r.pubdate ++ ',' :: ' ' ::
  jstr "skills".data ++ ':' :: ' ' :: '[' ::
    joinComma (r.skills.map jstr) ++ [']', '}']

/-! ## UTF-8 encoding (`.encode("utf-8")`, line 125) -/

/-- Standard UTF-8 encoding of one code point. -/
def utf8EncodeChar (c : Char) : List Nat :=
  let n := c.toNat
  if n < 0x80 then [n]
  else if n < 0x800 then [0xC0 + n / 64, 0x80 + n % 64]
  else if n < 0x10000 then [0xE0 + n / 4096, 0x80 + n / 64 % 64, 0x80 + n % 64]
  else [0xF0 + n / 0x40000, 0x80 + n / 4096 % 64, 0x80 + n / 64 % 64, 0x80 + n % 64]

/-- `str.encode("utf-8")`. -/
def utf8Encode (s : List Char) : List Nat := s.flatMap utf8EncodeChar

/-! ## `gzip.compress` / `gzip.decompress` (line 125)

Modelled from the spec: `gzip` is an external standard-library
collaborator ("compress with a standard gzip container", §4.3; the
archive is "gzip-compressed UTF-8 JSON", §6).  The member layout
(10-byte header with magic `1f 8b` and method 8, then the compressed
data, then CRC-32 and size-mod-2³² little-endian trailers) is modelled
concretely; the DEFLATE bit coding itself is abstracted to the identity
on the payload, which captures exactly the library's contract of
lossless round-tripping. -/

/-- One step of the standard CRC-32 (polynomial `0xEDB88320`). -/
def crc32Byte (crc b : Nat) : Nat :=
  let step := fun c => if c % 2 = 1 then (c / 2) ^^^ 0xEDB88320 else c / 2
  step (step (step (step (step (step (step (step ((crc ^^^ b) % 2 ^ 32))))))))

/-- CRC-32 of a byte sequence. -/
def crc32 (bs : List Nat) : Nat :=
  (bs.foldl crc32Byte 0xFFFFFFFF) ^^^ 0xFFFFFFFF

/-- Four little-endian bytes of `n % 2^32`. -/
def le32 (n : Nat) : List Nat :=
  [n % 256, n / 256 % 256, n / 65536 % 256, n / 16777216 % 256]

/-- The fixed 10-byte gzip member header (magic, method 8 = DEFLATE,
no flags, zero mtime, no extra flags, unknown OS). -/
def gzipHeader : List Nat := [0x1F, 0x8B, 8, 0, 0, 0, 0, 0, 0, 255]

/-- `gzip.compress(payload)`: header, payload (DEFLATE coding abstracted
— see the section comment), CRC-32 and length trailers. -/
def gzipCompress (payload : List Nat) : List Nat :=
  gzipHeader ++ payload ++ le32 (crc32 payload) ++ le32 payload.length

/-- `gzip.decompress`: check the magic bytes, strip the 10-byte header
and the 8 trailer bytes; `none` models raising `BadGzipFile`. -/
def gzipDecompress (bs : List Nat) : Option (List Nat) :=
  if bs.take 2 = [0x1F, 0x8B] ∧ 18 ≤ bs.length then
    some ((bs.drop 10).take (bs.length - 18))
  else none

/-! ## The uploader and the handler (lines 84–136) -/

/-- `upload_fileobj` (lines 84–104): the S3 client call is external; the
function returns `False` exactly when the client raises `ClientError`
(caught and logged), `True` otherwise. -/
def upload_fileobj (clientError : Bool) : Bool :=
  if clientError then false else true

/-- What one invocation of `lambda_handler` does, as observable effects:
the boolean return value, the archive object handed to the uploader
(`none` when no upload was attempted), and the uploader's boolean result
(`none` when no upload was attempted). -/
structure HandlerResult where
  retval : Bool
  uploaded : Option (List Char × List Nat)
  uploadResult : Option Bool
deriving DecidableEq

/-- `lambda_handler` (lines 107–136).  `resp` is the HTTP response the
fetch produced, `clientError` tells whether the S3 client raises, `now`
is `str(datetime.datetime.now(datetime.timezone.utc))`.  On a fetch
failure (`get_rss` returned `False`) the `else` branch returns `False`
with no upload; otherwise the record is assembled from the channel
fields and `get_skills`, serialized, compressed and handed to
`upload_fileobj`, whose boolean result is discarded, and the handler
returns `True`. -/
def lambda_handler (resp : Response) (clientError : Bool) (now : List Char) :
    HandlerResult :=
  match get_rss resp with
  | some jobs =>
    let title := jobs.channel.title
    let link := jobs.channel.link
    let description := jobs.channel.description
    let pubdate := jobs.channel.pubDate
    let retrieved_skill := get_skills jobs
    let content : ContentRecord := ⟨title, link, description, pubdate, retrieved_skill⟩
    let serialized_content := dumps content
    let compressed_content := gzipCompress (utf8Encode serialized_content)
    let current_time := now.map (fun c => if c = ' ' then '_' else c)
    let object_name := "upwork_skills_".data ++ current_time ++ ".json.gz".data
    let ok := upload_fileobj clientError
    { retval := true
      uploaded := some (object_name, compressed_content)
      uploadResult := some ok }
  | none => { retval := false, uploaded := none, uploadResult := none }

/-! ## Reading the archive back: a JSON parser (`json.loads`)

The archive format is "gzip-compressed UTF-8 JSON" whose top-level value
is an object of strings and one array of strings (§6), so the parser
below covers the JSON grammar of objects, arrays, strings (with the full
escape syntax including surrogate pairs) and the three literals; JSON
numbers never occur in the archive format and are not modelled. -/

/-- A JSON value. -/
inductive JVal where
  | str (s : List Char)
  | arr (elems : List JVal)
  | obj (members : List (List Char × JVal))
  | bool (b : Bool)
  | null

/-- JSON insignificant whitespace. -/
def isJsonWs (c : Char) : Bool := c = ' ' ∨ c = '\t' ∨ c = '\n' ∨ c = '\r'

/-- Drop leading JSON whitespace. -/
def skipWs (s : List Char) : List Char := s.dropWhile isJsonWs

/-- The character named by a single-character escape `\e`, if any. -/
def escCode (e : Char) : Option Char :=
  if e = '"' then some '"'
  else if e = '\\' then some '\\'
  else if e = '/' then some '/'
  else if e = 'b' then some (Char.ofNat 0x08)
  else if e = 'f' then some (Char.ofNat 0x0C)
  else if e = 'n' then some '\n'
  else if e = 'r' then some '\r'
  else if e = 't' then some '\t'
  else none

/-- One unescaped unit of a JSON string body: either a literal character
or the code unit of a `\uXXXX` escape (possibly half of a surrogate
pair). -/
inductive JUnit where
  | raw (c : Char)
  | esc (n : Nat)

/-- Scan a JSON string body up to the closing quote, producing the units
and the text after the closing quote.  Control characters are rejected
(`json.loads` default `strict=True`), as are truncated escapes. -/
def parseUnits : List Char → Option (List JUnit × List Char)
  | [] => none
  | c :: rest =>
    if c = '"' then some ([], rest)
    else if c = '\\' then
      match rest with
      | [] => none
      | e :: rest2 =>
        if e = 'u' then
          match rest2 with
          | a :: b :: c2 :: d :: rest3 =>
            match hexVal a, hexVal b, hexVal c2, hexVal d with
            | some x, some y, some z, some w =>
              (parseUnits rest3).map fun p =>
                (JUnit.esc (((x * 16 + y) * 16 + z) * 16 + w) :: p.1, p.2)
            | _, _, _, _ => none
          | _ => none
        else
          match escCode e with
          | some ec => (parseUnits rest2).map fun p => (JUnit.raw ec :: p.1, p.2)
          | none => none
    else if c.toNat < 0x20 then none
    else (parseUnits rest).map fun p => (JUnit.raw c :: p.1, p.2)

/-- Combine scanned units into characters: a high `\uXXXX` surrogate must
be followed by an escaped low surrogate (the pair decodes to one code
point); lone surrogates are rejected (they name no `Char`). -/
def combineUnits : List JUnit → Option (List Char)
  | [] => some []
  | JUnit.raw c :: rest => (combineUnits rest).map (c :: ·)
  | JUnit.esc n :: rest =>
    if n < 0xD800 ∨ 0xDFFF < n then
      if n < 0x110000 then (combineUnits rest).map (Char.ofNat n :: ·) else none
    else if n < 0xDC00 then
      match rest with
      | JUnit.esc m :: rest2 =>
        if 0xDC00 ≤ m ∧ m ≤ 0xDFFF then
          (combineUnits rest2).map
            (Char.ofNat (0x10000 + (n - 0xD800) * 0x400 + (m - 0xDC00)) :: ·)
        else none
      | _ => none
    else none

/-- Parse a JSON string literal (expects the opening quote first). -/
def parseJString : List Char → Option (List Char × List Char)
  | '"' :: rest =>
    (parseUnits rest).bind fun p => (combineUnits p.1).map fun cs => (cs, p.2)
  | _ => none

mutual

/-- Parse one JSON value.  The fuel only bounds the recursion (one unit
per value or list element); `loads` supplies more fuel than any input
can consume. -/
def parseValue : Nat → List Char → Option (JVal × List Char)
  | 0, _ => none
  | fuel + 1, s =>
    match skipWs s with
    | [] => none
    | '"' :: rest =>
      (parseJString ('"' :: rest)).map fun p => (JVal.str p.1, p.2)
    | '[' :: rest =>
      match skipWs rest with
      | ']' :: r2 => some (JVal.arr [], r2)
      | _ => (parseElems fuel rest).map fun p => (JVal.arr p.1, p.2)
    | '{' :: rest =>
      match skipWs rest with
      | '}' :: r2 => some (JVal.obj [], r2)
      | _ => (parseMembers fuel rest).map fun p => (JVal.obj p.1, p.2)
    | 't' :: 'r' :: 'u' :: 'e' :: rest => some (JVal.bool true, rest)
    | 'f' :: 'a' :: 'l' :: 's' :: 'e' :: rest => some (JVal.bool false, rest)
    | 'n' :: 'u' :: 'l' :: 'l' :: rest => some (JVal.null, rest)
    | _ => none

/-- Parse the comma-separated elements of a non-empty array, consuming
the closing `]`. -/
def parseElems : Nat → List Char → Option (List JVal × List Char)
  | 0, _ => none
  | fuel + 1, s =>
    (parseValue fuel s).bind fun p =>
      match skipWs p.2 with
      | ',' :: r2 => (parseElems fuel r2).map fun q => (p.1 :: q.1, q.2)
      | ']' :: r2 => some ([p.1], r2)
      | _ => none

/-- Parse the comma-separated members of a non-empty object, consuming
the closing `}`.  Keys are JSON strings. -/
def parseMembers : Nat → List Char → Option (List (List Char × JVal) × List Char)
  | 0, _ => none
  | fuel + 1, s =>
    (parseJString (skipWs s)).bind fun pk =>
      match skipWs pk.2 with
      | ':' :: r2 =>
        (parseValue fuel r2).bind fun pv =>
          match skipWs pv.2 with
          | ',' :: r3 =>
            (parseMembers fuel r3).map fun q => ((pk.1, pv.1) :: q.1, q.2)
          | '}' :: r3 => some ([(pk.1, pv.1)], r3)
          | _ => none
      | _ => none

end

/-- `json.loads`: parse one value, allowing trailing whitespace only. -/
def loads (s : List Char) : Option JVal :=
  match parseValue (s.length + 1) s with
  | some (v, rest) => if skipWs rest = [] then some v else none
  | none => none

/-- The units the parser recovers for one serialized character: the
mirror image of `escChar` (named escapes and printable ASCII come back
as literal characters, `\uXXXX` escapes as code units). -/
def charUnits (c : Char) : List JUnit :=
  if c = '"' ∨ c = '\\' ∨ c = Char.ofNat 0x08 ∨ c = Char.ofNat 0x0C ∨
      c = '\n' ∨ c = '\r' ∨ c = '\t' then [JUnit.raw c]
  else if c.toNat < 0x20 then [JUnit.esc c.toNat]
  else if c.toNat < 0x7F then [JUnit.raw c]
  else if c.toNat < 0x10000 then [JUnit.esc c.toNat]
  else
    [JUnit.esc (0xD800 + (c.toNat - 0x10000) / 0x400),
     JUnit.esc (0xDC00 + (c.toNat - 0x10000) % 0x400)]

/-! ## Helper lemmas -/

/-- Splitting at a separator that sits at the very front. -/
theorem splitFirst_append_self (sep t : List Char) (hne : sep ≠ []) :
    splitFirst sep (sep ++ t) = some ([], t) := by
  cases sep with
  | nil => exact absurd rfl hne
  | cons c cs =>
    have hpre : (c :: cs).isPrefixOf ((c :: cs) ++ t) := by
      rw [List.isPrefixOf_iff_prefix]
      exact List.prefix_append _ _
    simp only [List.cons_append]
    rw [splitFirst]
    simp [hpre, List.drop_left']

/-- Splitting past a prefix that cannot contain the separator because it
never mentions the separator's first character. -/
theorem splitFirst_clean_prefix (c0 : Char) (sep' a t : List Char)
    (ha : c0 ∉ a) :
    splitFirst (c0 :: sep') (a ++ (c0 :: sep') ++ t) = some (a, t) := by
  induction a with
  | nil =>
    simpa using splitFirst_append_self (c0 :: sep') t (by simp)
  | cons c rest ih =>
    have hc : c0 ≠ c := fun h => ha (h ▸ List.mem_cons_self c rest)
    have hnp : ¬ (c0 :: sep').isPrefixOf (c :: (rest ++ (c0 :: sep') ++ t)) := by
      rw [List.isPrefixOf_iff_prefix]
      intro hp
      exact hc (List.cons_prefix_cons.mp hp).1
    have hrest : c0 ∉ rest := fun h => ha (List.mem_cons_of_mem c h)
    simp only [List.cons_append, List.append_assoc] at *
    rw [splitFirst, if_neg (by simpa using hnp), ih hrest]
    rfl

/-- `splitComma` never returns the empty list (Python's `split` always
yields at least one part). -/
theorem splitComma_ne_nil (s : List Char) : splitComma s ≠ [] := by
  cases s with
  | nil => simp [splitComma]
  | cons c rest =>
    rw [splitComma]
    split
    · simp
    · split <;> simp

/-- Appending a trailing comma appends a trailing empty part. -/
theorem splitComma_append_comma (s : List Char) :
    splitComma (s ++ [',']) = splitComma s ++ [[]] := by
  induction s with
  | nil => decide
  | cons c rest ih =>
    by_cases hc : c = ','
    · subst hc
      simp only [List.cons_append]
      rw [splitComma, if_pos rfl, splitComma, if_pos rfl, ih]
      simp
    · cases hsr : splitComma rest with
      | nil => exact absurd hsr (splitComma_ne_nil rest)
      | cons t0 ts0 =>
        simp only [List.cons_append]
        rw [splitComma, if_neg hc, splitComma, if_neg hc, ih, hsr]
        simp

/-! ## Helper lemmas for the archive round trip -/

/-- Every code point avoids the surrogate range and is below 0x110000. -/
theorem char_toNat_valid (c : Char) :
    c.toNat < 0xD800 ∨ (0xDFFF < c.toNat ∧ c.toNat < 0x110000) := by
  have h := c.valid
  simpa [Char.toNat, UInt32.isValidChar, Nat.isValidChar] using h

/-- Reading back a hex digit recovers the value it names. -/
theorem hexVal_hexDigitChar (d : Nat) (hd : d < 16) :
    hexVal (hexDigitChar d) = some d := by
  interval_cases d <;> decide

/-- Scanning a closing quote ends the string body. -/
theorem parseUnits_quote (r : List Char) : parseUnits ('"' :: r) = some ([], r) := by
  rw [parseUnits.eq_def]
  rfl

/-- Scanning a single-character escape yields the named character. -/
theorem parseUnits_esc (e ec : Char) (r : List Char)
    (hu : e ≠ 'u') (he : escCode e = some ec) :
    parseUnits ('\\' :: e :: r) =
      (parseUnits r).map fun p => (JUnit.raw ec :: p.1, p.2) := by
  rw [parseUnits.eq_def]
  simp [hu, he]

/-- Scanning an ordinary character yields it literally. -/
theorem parseUnits_plain (c : Char) (r : List Char)
    (h1 : c ≠ '"') (h2 : c ≠ '\\') (h3 : ¬c.toNat < 0x20) :
    parseUnits (c :: r) = (parseUnits r).map fun p => (JUnit.raw c :: p.1, p.2) := by
  rw [parseUnits.eq_def]
  simp [h1, h2, h3]

/-- Scanning a `\uXXXX` escape yields its code unit. -/
theorem parseUnits_u (n : Nat) (hn : n < 0x10000) (r : List Char) :
    parseUnits ('\\' :: 'u' :: (hex4 n ++ r)) =
      (parseUnits r).map fun p => (JUnit.esc n :: p.1, p.2) := by
  have h1 := hexVal_hexDigitChar (n / 4096) (by omega)
  have h2 := hexVal_hexDigitChar (n / 256 % 16) (by omega)
  have h3 := hexVal_hexDigitChar (n / 16 % 16) (by omega)
  have h4 := hexVal_hexDigitChar (n % 16) (by omega)
  have hrec : ((n / 4096 * 16 + n / 256 % 16) * 16 + n / 16 % 16) * 16 + n % 16 = n := by
    omega
  rw [parseUnits.eq_def]
  simp only [hex4, List.cons_append, List.nil_append]
  simp [h1, h2, h3, h4, hrec]

/-- Scanning the serialization of one character yields its units. -/
theorem parseUnits_escChar (c : Char) (r : List Char) :
    parseUnits (escChar c ++ r) =
      (parseUnits r).map fun p => (charUnits c ++ p.1, p.2) := by
  by_cases h1 : c = '"'
  · subst h1
    rw [show escChar '"' ++ r = '\\' :: '"' :: r from rfl,
      parseUnits_esc '"' '"' r (by decide) (by decide)]
    simp [charUnits]
  by_cases h2 : c = '\\'
  · subst h2
    rw [show escChar '\\' ++ r = '\\' :: '\\' :: r from rfl,
      parseUnits_esc '\\' '\\' r (by decide) (by decide)]
    simp [charUnits]
  by_cases h3 : c = Char.ofNat 0x08
  · subst h3
    rw [show escChar (Char.ofNat 0x08) ++ r = '\\' :: 'b' :: r from rfl,
      parseUnits_esc 'b' (Char.ofNat 0x08) r (by decide) (by decide)]
    simp [charUnits]
  by_cases h4 : c = Char.ofNat 0x0C
  · subst h4
    rw [show escChar (Char.ofNat 0x0C) ++ r = '\\' :: 'f' :: r from rfl,
      parseUnits_esc 'f' (Char.ofNat 0x0C) r (by decide) (by decide)]
    simp [charUnits]
  by_cases h5 : c = '\n'
  · subst h5
    rw [show escChar '\n' ++ r = '\\' :: 'n' :: r from rfl,
      parseUnits_esc 'n' '\n' r (by decide) (by decide)]
    simp [charUnits]
  by_cases h6 : c = '\r'
  · subst h6
    rw [show escChar '\r' ++ r = '\\' :: 'r' :: r from rfl,
      parseUnits_esc 'r' '\r' r (by decide) (by decide)]
    simp [charUnits]
  by_cases h7 : c = '\t'
  · subst h7
    rw [show escChar '\t' ++ r = '\\' :: 't' :: r from rfl,
      parseUnits_esc 't' '\t' r (by decide) (by decide)]
    simp [charUnits]
  have hnamed : ¬(c = '"' ∨ c = '\\' ∨ c = Char.ofNat 0x08 ∨ c = Char.ofNat 0x0C ∨
      c = '\n' ∨ c = '\r' ∨ c = '\t') := by
    simp [h1, h2, h3, h4, h5, h6, h7]
  rw [charUnits, if_neg hnamed, escChar, if_neg h1, if_neg h2, if_neg h3, if_neg h4,
    if_neg h5, if_neg h6, if_neg h7]
  by_cases hc1 : c.toNat < 0x20
  · rw [if_pos hc1, if_pos hc1]
    simpa using parseUnits_u c.toNat (by omega) r
  rw [if_neg hc1, if_neg hc1]
  by_cases hc2 : c.toNat < 0x7F
  · rw [if_pos hc2, if_pos hc2]
    rw [show ([c] : List Char) ++ r = c :: r from rfl, parseUnits_plain c r h1 h2 hc1]
    simp
  rw [if_neg hc2, if_neg hc2]
  by_cases hc3 : c.toNat < 0x10000
  · rw [if_pos hc3, if_pos hc3]
    simpa using parseUnits_u c.toNat hc3 r
  rw [if_neg hc3, if_neg hc3]
  have hval := char_toNat_valid c
  have hhi : 0xD800 + (c.toNat - 0x10000) / 0x400 < 0x10000 := by omega
  have hlo : 0xDC00 + (c.toNat - 0x10000) % 0x400 < 0x10000 := by omega
  simp only [List.append_assoc, List.cons_append, List.nil_append]
  rw [parseUnits_u _ hhi, parseUnits_u _ hlo, Option.map_map]
  rfl

/-- Combining a literal unit. -/
theorem combineUnits_raw (c : Char) (rest : List JUnit) :
    combineUnits (JUnit.raw c :: rest) = (combineUnits rest).map (c :: ·) := rfl

/-- Combining a non-surrogate code unit. -/
theorem combineUnits_escBMP (n : Nat) (rest : List JUnit)
    (h : n < 0xD800 ∨ 0xDFFF < n) (h2 : n < 0x110000) :
    combineUnits (JUnit.esc n :: rest) =
      (combineUnits rest).map (Char.ofNat n :: ·) := by
  rw [combineUnits.eq_def]
  simp [h, h2]

/-- Combining an escaped surrogate pair. -/
theorem combineUnits_escPair (n m : Nat) (rest : List JUnit)
    (hn1 : 0xD800 ≤ n) (hn2 : n < 0xDC00) (hm : 0xDC00 ≤ m ∧ m ≤ 0xDFFF) :
    combineUnits (JUnit.esc n :: JUnit.esc m :: rest) =
      (combineUnits rest).map
        (Char.ofNat (0x10000 + (n - 0xD800) * 0x400 + (m - 0xDC00)) :: ·) := by
  have hno : ¬(n < 0xD800 ∨ 0xDFFF < n) := by omega
  rw [combineUnits.eq_def]
  simp [hno, hn2, hm]

/-- Combining the units of a serialized string recovers the string. -/
theorem combineUnits_charUnits (s : List Char) :
    combineUnits (s.flatMap charUnits) = some s := by
  induction s with
  | nil => rfl
  | cons c s' ih =>
    rw [List.flatMap_cons]
    by_cases h1 : c = '"' ∨ c = '\\' ∨ c = Char.ofNat 0x08 ∨ c = Char.ofNat 0x0C ∨
        c = '\n' ∨ c = '\r' ∨ c = '\t'
    · rw [charUnits, if_pos h1, List.singleton_append, combineUnits_raw, ih]
      rfl
    rw [charUnits, if_neg h1]
    have hval := char_toNat_valid c
    by_cases hc1 : c.toNat < 0x20
    · rw [if_pos hc1, List.singleton_append,
        combineUnits_escBMP _ _ (by omega) (by omega), ih, Char.ofNat_toNat]
      rfl
    rw [if_neg hc1]
    by_cases hc2 : c.toNat < 0x7F
    · rw [if_pos hc2, List.singleton_append, combineUnits_raw, ih]
      rfl
    rw [if_neg hc2]
    by_cases hc3 : c.toNat < 0x10000
    · rw [if_pos hc3, List.singleton_append,
        combineUnits_escBMP _ _ (by omega) (by omega), ih, Char.ofNat_toNat]
      rfl
    rw [if_neg hc3]
    have harith : 0x10000 +
        (0xD800 + (c.toNat - 0x10000) / 0x400 - 0xD800) * 0x400 +
        (0xDC00 + (c.toNat - 0x10000) % 0x400 - 0xDC00) = c.toNat := by omega
    rw [List.cons_append, List.cons_append, List.nil_append,
      combineUnits_escPair _ _ _ (by omega) (by omega) (by omega),
      harith, ih, Char.ofNat_toNat]
    rfl

/-- Scanning a whole escaped body up to the closing quote yields the
units of every character in order, and the text after the quote. -/
theorem parseUnits_jesc (s t : List Char) :
    parseUnits (s.flatMap escChar ++ '"' :: t) = some (s.flatMap charUnits, t) := by
  induction s with
  | nil => simpa using parseUnits_quote t
  | cons c s' ih =>
    rw [List.flatMap_cons, List.append_assoc, parseUnits_escChar, ih]
    simp

/-- Parsing back the JSON string literal of `s` yields exactly `s`. -/
theorem parseJString_jstr (s t : List Char) :
    parseJString (jstr s ++ t) = some (s, t) := by
  have hshape : jstr s ++ t = '"' :: (s.flatMap escChar ++ '"' :: t) := by
    simp [jstr]
  rw [hshape, parseJString, parseUnits_jesc]
  simp [combineUnits_charUnits]

/-- `skipWs` leaves a non-whitespace head alone. -/
theorem skipWs_cons (c : Char) (r : List Char) (h : isJsonWs c = false) :
    skipWs (c :: r) = c :: r := by
  simp [skipWs, List.dropWhile_cons, h]

/-- `skipWs` drops a leading space. -/
theorem skipWs_space (r : List Char) : skipWs (' ' :: r) = skipWs r := rfl

/-- Step equation of `parseValue` at positive fuel. -/
theorem parseValue_succ (fuel : Nat) (s : List Char) :
    parseValue (fuel + 1) s = match skipWs s with
      | [] => none
      | '"' :: rest =>
        (parseJString ('"' :: rest)).map fun p => (JVal.str p.1, p.2)
      | '[' :: rest =>
        match skipWs rest with
        | ']' :: r2 => some (JVal.arr [], r2)
        | _ => (parseElems fuel rest).map fun p => (JVal.arr p.1, p.2)
      | '{' :: rest =>
        match skipWs rest with
        | '}' :: r2 => some (JVal.obj [], r2)
        | _ => (parseMembers fuel rest).map fun p => (JVal.obj p.1, p.2)
      | 't' :: 'r' :: 'u' :: 'e' :: rest => some (JVal.bool true, rest)
      | 'f' :: 'a' :: 'l' :: 's' :: 'e' :: rest => some (JVal.bool false, rest)
      | 'n' :: 'u' :: 'l' :: 'l' :: rest => some (JVal.null, rest)
      | _ => none := by
  rw [parseValue.eq_def]

/-- `parseValue` at an opening quote delegates to the string parser. -/
theorem parseValue_quote (fuel : Nat) (rest : List Char) :
    parseValue (fuel + 1) ('"' :: rest) =
      (parseJString ('"' :: rest)).map fun p => (JVal.str p.1, p.2) := rfl

/-- Parsing a value at a serialized string literal. -/
theorem parseValue_str (f : Nat) (s t : List Char) :
    parseValue (f + 1) (jstr s ++ t) = some (JVal.str s, t) := by
  have hshape : jstr s ++ t = '"' :: (s.flatMap escChar ++ '"' :: t) := by
    simp [jstr]
  have hstr : parseJString ('"' :: (s.flatMap escChar ++ '"' :: t)) = some (s, t) := by
    rw [← hshape]
    exact parseJString_jstr s t
  rw [hshape, parseValue_quote f, hstr]
  rfl

/-- Step equation of `parseElems` at positive fuel. -/
theorem parseElems_succ (fuel : Nat) (s : List Char) :
    parseElems (fuel + 1) s = (parseValue fuel s).bind fun p =>
      match skipWs p.2 with
      | ',' :: r2 => (parseElems fuel r2).map fun q => (p.1 :: q.1, q.2)
      | ']' :: r2 => some ([p.1], r2)
      | _ => none := by
  rw [parseElems.eq_def]

/-- Step equation of `parseMembers` at positive fuel. -/
theorem parseMembers_succ (fuel : Nat) (s : List Char) :
    parseMembers (fuel + 1) s = (parseJString (skipWs s)).bind fun pk =>
      match skipWs pk.2 with
      | ':' :: r2 =>
        (parseValue fuel r2).bind fun pv =>
          match skipWs pv.2 with
          | ',' :: r3 =>
            (parseMembers fuel r3).map fun q => ((pk.1, pv.1) :: q.1, q.2)
          | '}' :: r3 => some ([(pk.1, pv.1)], r3)
          | _ => none
      | _ => none := by
  rw [parseMembers.eq_def]

/-- A leading space changes no parse result (values). -/
theorem parseValue_space (f : Nat) (r : List Char) :
    parseValue f (' ' :: r) = parseValue f r := by
  cases f with
  | zero => rfl
  | succ g =>
    rw [parseValue_succ g (' ' :: r), parseValue_succ g r, skipWs_space]

/-- A leading space changes no parse result (array elements). -/
theorem parseElems_space (f : Nat) (r : List Char) :
    parseElems f (' ' :: r) = parseElems f r := by
  cases f with
  | zero => rfl
  | succ g =>
    rw [parseElems_succ g (' ' :: r), parseElems_succ g r, parseValue_space]

/-- A leading space changes no parse result (object members). -/
theorem parseMembers_space (f : Nat) (r : List Char) :
    parseMembers f (' ' :: r) = parseMembers f r := by
  cases f with
  | zero => rfl
  | succ g =>
    rw [parseMembers_succ g (' ' :: r), parseMembers_succ g r, skipWs_space]

/-- One-element `joinComma`. -/
theorem joinComma_one (x : List Char) : joinComma [x] = x := rfl

/-- Two-or-more-element `joinComma`. -/
theorem joinComma_cons (x y : List Char) (rest : List (List Char)) :
    joinComma (x :: y :: rest) = x ++ ',' :: ' ' :: joinComma (y :: rest) := rfl

/-- Parsing the element list of a serialized non-empty string array. -/
theorem parseElems_strs (s0 : List Char) (skills : List (List Char)) (f : Nat)
    (t : List Char) (hf : skills.length + 2 ≤ f) :
    parseElems f (joinComma ((s0 :: skills).map jstr) ++ ']' :: t) =
      some ((s0 :: skills).map JVal.str, t) := by
  induction skills generalizing s0 f with
  | nil =>
    obtain ⟨g, rfl⟩ : ∃ g, f = g + 1 + 1 := ⟨f - 2, by omega⟩
    rw [List.map_cons, List.map_nil, joinComma_one, parseElems_succ,
      parseValue_str g]
    simp [skipWs_cons ']' t (by decide)]
  | cons s1 sk ih =>
    obtain ⟨g, rfl⟩ : ∃ g, f = g + 1 + 1 := ⟨f - 2, by omega⟩
    rw [List.map_cons, List.map_cons, joinComma_cons, parseElems_succ]
    rw [List.append_assoc, List.cons_append, List.cons_append, parseValue_str g]
    have hrest : parseElems (g + 1) (' ' :: (joinComma ((s1 :: sk).map jstr) ++ ']' :: t)) =
        some ((s1 :: sk).map JVal.str, t) := by
      rw [parseElems_space, ih s1 (g + 1) (by simp at hf ⊢; omega)]
    simp [skipWs_cons ',' _ (by decide), List.map_cons] at hrest ⊢
    rw [hrest]

/-- `parseValue` at an opening bracket. -/
theorem parseValue_lbracket (fuel : Nat) (rest : List Char) :
    parseValue (fuel + 1) ('[' :: rest) =
      match skipWs rest with
      | ']' :: r2 => some (JVal.arr [], r2)
      | _ => (parseElems fuel rest).map fun p => (JVal.arr p.1, p.2) := rfl

/-- `parseValue` at an opening brace. -/
theorem parseValue_lbrace (fuel : Nat) (rest : List Char) :
    parseValue (fuel + 1) ('{' :: rest) =
      match skipWs rest with
      | '}' :: r2 => some (JVal.obj [], r2)
      | _ => (parseMembers fuel rest).map fun p => (JVal.obj p.1, p.2) := rfl

/-- A non-empty array (first character of the content a quote) parses
through `parseElems`. -/
theorem parseValue_arrElems (fuel : Nat) (rest r' : List Char)
    (h : rest = '"' :: r') :
    parseValue (fuel + 1) ('[' :: rest) =
      (parseElems fuel rest).map fun p => (JVal.arr p.1, p.2) := by
  subst h
  rw [parseValue_lbracket, skipWs_cons '"' _ (by decide)]
  rfl

/-- A non-empty object (first character of the content a quote) parses
through `parseMembers`. -/
theorem parseValue_objMembers (fuel : Nat) (rest r' : List Char)
    (h : rest = '"' :: r') :
    parseValue (fuel + 1) ('{' :: rest) =
      (parseMembers fuel rest).map fun p => (JVal.obj p.1, p.2) := by
  subst h
  rw [parseValue_lbrace, skipWs_cons '"' _ (by decide)]
  rfl

/-- Parsing a serialized string array (the `skills` value). -/
theorem parseValue_strArr (f : Nat) (skills : List (List Char)) (t : List Char)
    (hf : skills.length + 2 ≤ f) :
    parseValue f ('[' :: (joinComma (skills.map jstr) ++ ']' :: t)) =
      some (JVal.arr (skills.map JVal.str), t) := by
  obtain ⟨g, rfl⟩ : ∃ g, f = g + 1 := ⟨f - 1, by omega⟩
  cases skills with
  | nil => rfl
  | cons s0 sk =>
    obtain ⟨tl, hshape⟩ :
        ∃ x, joinComma ((s0 :: sk).map jstr) ++ ']' :: t = '"' :: x := by
      cases sk with
      | nil =>
        refine ⟨s0.flatMap escChar ++ '"' :: ']' :: t, ?_⟩
        rw [List.map_cons, List.map_nil, joinComma_one]
        simp [jstr]
      | cons s1 sk' =>
        refine ⟨s0.flatMap escChar ++
          '"' :: ',' :: ' ' :: joinComma ((s1 :: sk').map jstr) ++ ']' :: t, ?_⟩
        rw [List.map_cons, List.map_cons, joinComma_cons]
        simp [jstr]
    rw [parseValue_arrElems g _ tl hshape,
      parseElems_strs s0 sk g t (by simp at hf ⊢; omega)]
    rfl

/-- Parsing one `"key": "value», ` object member. -/
theorem parseMembers_strMember (g : Nat) (key val rest : List Char) :
    parseMembers (g + 1 + 1)
        (jstr key ++ ':' :: ' ' :: (jstr val ++ ',' :: ' ' :: rest)) =
      (parseMembers (g + 1) rest).map fun q => ((key, JVal.str val) :: q.1, q.2) := by
  rw [parseMembers_succ]
  have hshape : jstr key ++ ':' :: ' ' :: (jstr val ++ ',' :: ' ' :: rest) =
      '"' :: (key.flatMap escChar ++
        '"' :: (':' :: ' ' :: (jstr val ++ ',' :: ' ' :: rest))) := by
    simp [jstr]
  rw [hshape, skipWs_cons '"' _ (by decide), ← hshape, parseJString_jstr]
  have h1 : parseValue (g + 1) (' ' :: (jstr val ++ ',' :: ' ' :: rest)) =
      some (JVal.str val, ',' :: ' ' :: rest) := by
    rw [parseValue_space, parseValue_str g]
  simp [skipWs_cons ':' _ (by decide), skipWs_cons ',' _ (by decide), h1,
    parseMembers_space]

/-- Parsing the final `"key": [ … ]}` object member. -/
theorem parseMembers_last (g : Nat) (key : List Char) (skills : List (List Char))
    (t : List Char) (hg : skills.length + 2 ≤ g) :
    parseMembers (g + 1)
        (jstr key ++ ':' :: ' ' :: ('[' :: (joinComma (skills.map jstr) ++
          ']' :: '}' :: t))) =
      some ([(key, JVal.arr (skills.map JVal.str))], t) := by
  rw [parseMembers_succ]
  have hshape : jstr key ++ ':' :: ' ' :: ('[' :: (joinComma (skills.map jstr) ++
      ']' :: '}' :: t)) =
      '"' :: (key.flatMap escChar ++
        '"' :: (':' :: ' ' :: ('[' :: (joinComma (skills.map jstr) ++
          ']' :: '}' :: t)))) := by
    simp [jstr]
  rw [hshape, skipWs_cons '"' _ (by decide), ← hshape, parseJString_jstr]
  have h1 : parseValue g
      (' ' :: '[' :: (joinComma (skills.map jstr) ++ ']' :: '}' :: t)) =
      some (JVal.arr (skills.map JVal.str), '}' :: t) := by
    rw [parseValue_space, parseValue_strArr g skills ('}' :: t) hg]
  simp [skipWs_cons ':' _ (by decide), skipWs_cons '}' _ (by decide), h1]

/-- Parsing the full serialized content record: exactly the five keys
with the record's values, consuming the whole text. -/
theorem parseValue_dumps (r : ContentRecord) (f : Nat)
    (hf : r.skills.length + 8 ≤ f) :
    parseValue f (dumps r) = some (JVal.obj [
      ("title".data, JVal.str r.title),
      ("link".data, JVal.str r.link),
      ("description".data, JVal.str r.description),
      ("pubdate".data, JVal.str r.pubdate),
      ("skills".data, JVal.arr (r.skills.map JVal.str))], []) := by
  obtain ⟨m, rfl⟩ : ∃ m, f = m + 8 := ⟨f - 8, by omega⟩
  have hm : r.skills.length ≤ m := by omega
  have hbody : dumps r = '{' ::
      (jstr "title".data ++ ':' :: ' ' :: (jstr r.title ++ ',' :: ' ' ::
      (jstr "link".data ++ ':' :: ' ' :: (jstr r.link ++ ',' :: ' ' ::
      (jstr "description".data ++ ':' :: ' ' :: (jstr r.description ++ ',' :: ' ' ::
      (jstr "pubdate".data ++ ':' :: ' ' :: (jstr r.pubdate ++ ',' :: ' ' ::
      (jstr "skills".data ++ ':' :: ' ' ::
        ('[' :: (joinComma (r.skills.map jstr) ++ ']' :: '}' :: []))))))))))) := by
    simp [dumps]
  obtain ⟨tl, hshape⟩ : ∃ x,
      (jstr "title".data ++ ':' :: ' ' :: (jstr r.title ++ ',' :: ' ' ::
      (jstr "link".data ++ ':' :: ' ' :: (jstr r.link ++ ',' :: ' ' ::
      (jstr "description".data ++ ':' :: ' ' :: (jstr r.description ++ ',' :: ' ' ::
      (jstr "pubdate".data ++ ':' :: ' ' :: (jstr r.pubdate ++ ',' :: ' ' ::
      (jstr "skills".data ++ ':' :: ' ' ::
        ('[' :: (joinComma (r.skills.map jstr) ++ ']' :: '}' :: []))))))))))) =
      '"' :: x := ⟨"title".data.flatMap escChar ++
        '"' :: (':' :: ' ' :: (jstr r.title ++ ',' :: ' ' ::
        (jstr "link".data ++ ':' :: ' ' :: (jstr r.link ++ ',' :: ' ' ::
        (jstr "description".data ++ ':' :: ' ' :: (jstr r.description ++ ',' :: ' ' ::
        (jstr "pubdate".data ++ ':' :: ' ' :: (jstr r.pubdate ++ ',' :: ' ' ::
        (jstr "skills".data ++ ':' :: ' ' ::
          ('[' :: (joinComma (r.skills.map jstr) ++ ']' :: '}' :: []))))))))))),
        by simp [jstr]⟩
  rw [hbody]
  rw [show m + 8 = (m + 7) + 1 from rfl, parseValue_objMembers (m + 7) _ tl hshape]
  rw [show m + 7 = (m + 5) + 1 + 1 from rfl, parseMembers_strMember (m + 5)]
  rw [show m + 5 + 1 = (m + 4) + 1 + 1 from rfl, parseMembers_strMember (m + 4)]
  rw [show m + 4 + 1 = (m + 3) + 1 + 1 from rfl, parseMembers_strMember (m + 3)]
  rw [show m + 3 + 1 = (m + 2) + 1 + 1 from rfl, parseMembers_strMember (m + 2)]
  rw [parseMembers_last (m + 2) "skills".data r.skills []
    (by simpa using hm)]
  rfl

/-- A list of serialized strings is at most one longer than its joined
rendering: enough fuel for the parser comes from the text length. -/
theorem joinComma_len (L : List (List Char)) :
    L.length ≤ (joinComma (L.map jstr)).length + 1 := by
  induction L with
  | nil => simp [joinComma]
  | cons x rest ih =>
    cases rest with
    | nil => simp [joinComma_one]
    | cons y rest' =>
      rw [List.map_cons, List.map_cons, joinComma_cons]
      rw [List.map_cons] at ih
      simp only [List.length_cons, List.length_append] at ih ⊢
      omega

/-- The serialized record is longer than the fuel the parser needs. -/
theorem dumps_len (r : ContentRecord) :
    r.skills.length + 7 ≤ (dumps r).length := by
  have hj := joinComma_len r.skills
  rw [dumps]
  simp only [List.length_append, List.length_cons]
  omega

/-- `loads` of the serialized record: exactly the five keys, with the
record's values. -/
theorem loads_dumps (r : ContentRecord) :
    loads (dumps r) = some (JVal.obj [
      ("title".data, JVal.str r.title),
      ("link".data, JVal.str r.link),
      ("description".data, JVal.str r.description),
      ("pubdate".data, JVal.str r.pubdate),
      ("skills".data, JVal.arr (r.skills.map JVal.str))]) := by
  have hlen := dumps_len r
  rw [loads, parseValue_dumps r ((dumps r).length + 1) (by omega)]
  rfl

/-- A hex digit is an ASCII character. -/
theorem hexDigitChar_ascii (d : Nat) (hd : d < 16) :
    (hexDigitChar d).toNat < 0x80 := by
  interval_cases d <;> decide

/-- A four-digit hex body is ASCII. -/
theorem hex4_ascii (n : Nat) (hn : n < 0x10000) :
    ∀ x ∈ hex4 n, x.toNat < 0x80 := by
  intro x hx
  simp only [hex4, List.mem_cons, List.not_mem_nil, or_false] at hx
  rcases hx with rfl | rfl | rfl | rfl
  · exact hexDigitChar_ascii _ (by omega)
  · exact hexDigitChar_ascii _ (by omega)
  · exact hexDigitChar_ascii _ (by omega)
  · exact hexDigitChar_ascii _ (by omega)

/-- `json.dumps` escaping produces only ASCII characters
(`ensure_ascii=True`). -/
theorem escChar_ascii (c : Char) : ∀ x ∈ escChar c, x.toNat < 0x80 := by
  intro x hx
  by_cases h1 : c = '"'
  · subst h1; simp [escChar] at hx; rcases hx with rfl | rfl <;> decide
  by_cases h2 : c = '\\'
  · subst h2; simp [escChar] at hx; rcases hx with rfl; decide
  by_cases h3 : c = Char.ofNat 0x08
  · subst h3; simp [escChar] at hx; rcases hx with rfl | rfl <;> decide
  by_cases h4 : c = Char.ofNat 0x0C
  · subst h4; simp [escChar] at hx; rcases hx with rfl | rfl <;> decide
  by_cases h5 : c = '\n'
  · subst h5; simp [escChar] at hx; rcases hx with rfl | rfl <;> decide
  by_cases h6 : c = '\r'
  · subst h6; simp [escChar] at hx; rcases hx with rfl | rfl <;> decide
  by_cases h7 : c = '\t'
  · subst h7; simp [escChar] at hx; rcases hx with rfl | rfl <;> decide
  rw [escChar, if_neg h1, if_neg h2, if_neg h3, if_neg h4, if_neg h5, if_neg h6,
    if_neg h7] at hx
  by_cases hc1 : c.toNat < 0x20
  · rw [if_pos hc1] at hx
    simp only [List.mem_cons] at hx
    rcases hx with rfl | rfl | hx
    · decide
    · decide
    · exact hex4_ascii c.toNat (by omega) x hx
  rw [if_neg hc1] at hx
  by_cases hc2 : c.toNat < 0x7F
  · rw [if_pos hc2] at hx
    simp only [List.mem_singleton] at hx
    subst hx
    omega
  rw [if_neg hc2] at hx
  by_cases hc3 : c.toNat < 0x10000
  · rw [if_pos hc3] at hx
    simp only [List.mem_cons] at hx
    rcases hx with rfl | rfl | hx
    · decide
    · decide
    · exact hex4_ascii c.toNat hc3 x hx
  rw [if_neg hc3] at hx
  have hval := char_toNat_valid c
  simp only [List.cons_append, List.mem_cons, List.mem_append] at hx
  rcases hx with rfl | rfl | hx
  · decide
  · decide
  rcases hx with hx | hx
  · exact hex4_ascii _ (by omega) x hx
  rcases hx with rfl | rfl | hx
  · decide
  · decide
  · exact hex4_ascii _ (by omega) x hx

/-- A JSON string literal from `dumps` is ASCII. -/
theorem jstr_ascii (s : List Char) : ∀ x ∈ jstr s, x.toNat < 0x80 := by
  intro x hx
  simp only [jstr, List.mem_cons, List.mem_append, List.mem_singleton,
    List.mem_flatMap] at hx
  rcases hx with (rfl | ⟨c, _, hc⟩) | rfl | h
  · decide
  · exact escChar_ascii c x hc
  · decide
  · simp at h

/-- A joined list of serialized strings is ASCII. -/
theorem joinComma_jstr_ascii (L : List (List Char)) :
    ∀ x ∈ joinComma (L.map jstr), x.toNat < 0x80 := by
  induction L with
  | nil => intro x hx; simp [joinComma] at hx
  | cons l rest ih =>
    cases rest with
    | nil =>
      intro x hx
      rw [List.map_cons, List.map_nil, joinComma_one] at hx
      exact jstr_ascii l x hx
    | cons l2 rest2 =>
      intro x hx
      rw [List.map_cons, List.map_cons, joinComma_cons] at hx
      simp only [List.mem_append, List.mem_cons] at hx
      rcases hx with hx | rfl | rfl | hx
      · exact jstr_ascii l x hx
      · decide
      · decide
      · exact ih x hx

/-- The whole serialized record is ASCII. -/
theorem dumps_ascii (r : ContentRecord) : ∀ x ∈ dumps r, x.toNat < 0x80 := by
  rw [dumps]
  simp only [List.forall_mem_cons, List.forall_mem_append]
  and_intros <;>
    first
      | decide
      | exact jstr_ascii _
      | exact joinComma_jstr_ascii r.skills

/-- Encoding an ASCII string is the list of its code points. -/
theorem utf8Encode_ascii (s : List Char) (h : ∀ x ∈ s, x.toNat < 0x80) :
    utf8Encode s = s.map Char.toNat := by
  induction s with
  | nil => rfl
  | cons c rest ih =>
    have hc : c.toNat < 0x80 := h c (List.mem_cons_self c rest)
    rw [utf8Encode, List.flatMap_cons, List.map_cons]
    rw [show utf8EncodeChar c = [c.toNat] by simp [utf8EncodeChar, hc]]
    rw [show rest.flatMap utf8EncodeChar = List.map Char.toNat rest from
      ih fun x hx => h x (List.mem_cons_of_mem c hx)]
    rfl

/-- Decoding ASCII bytes never consumes more than one byte per step. -/
theorem utf8DecodeF_ascii (bs : List Nat) (f : Nat)
    (hb : ∀ b ∈ bs, b < 0x80) (hf : bs.length ≤ f) :
    utf8DecodeF f bs = bs.map Char.ofNat := by
  induction bs generalizing f with
  | nil => cases f <;> rfl
  | cons b rest ih =>
    obtain ⟨g, rfl⟩ : ∃ g, f = g + 1 := ⟨f - 1, by simp at hf; omega⟩
    have hbb : b < 0x80 := hb b (List.mem_cons_self b rest)
    rw [utf8DecodeF.eq_def]
    dsimp only
    rw [if_pos hbb,
      ih g (fun x hx => hb x (List.mem_cons_of_mem b hx)) (by simp at hf; omega)]
    rfl

/-- UTF-8 round trip on ASCII text. -/
theorem utf8_roundtrip_ascii (s : List Char) (h : ∀ x ∈ s, x.toNat < 0x80) :
    utf8Decode (utf8Encode s) = s := by
  rw [utf8Decode, utf8Encode_ascii s h,
    utf8DecodeF_ascii (s.map Char.toNat) (s.map Char.toNat).length
      (by intro b hb; simp only [List.mem_map] at hb; obtain ⟨c, hc, rfl⟩ := hb;
          exact h c hc)
      le_rfl,
    List.map_map]
  have hmap : ∀ (l : List Char), l.map (Char.ofNat ∘ Char.toNat) = l := by
    intro l
    induction l with
    | nil => rfl
    | cons c rest ih => simp [Function.comp, Char.ofNat_toNat, ih]
  exact hmap s

/-- The gzip container round-trips losslessly. -/
theorem gzip_roundtrip (p : List Nat) :
    gzipDecompress (gzipCompress p) = some p := by
  have hc : gzipCompress p =
      gzipHeader ++ (p ++ (le32 (crc32 p) ++ le32 p.length)) := by
    simp [gzipCompress, List.append_assoc]
  have hlen : (gzipCompress p).length = p.length + 18 := by
    rw [hc]
    simp [gzipHeader, le32]
  have hmagic : (gzipCompress p).take 2 = [0x1F, 0x8B] := by
    rw [hc]
    rfl
  rw [gzipDecompress, if_pos ⟨hmagic, by omega⟩, hlen, hc,
    List.drop_left' (show (gzipHeader).length = 10 from rfl),
    show p.length + 18 - 18 = p.length from by omega,
    List.take_left p _]

/-! ## The claims -/

/-- C1 (counterexample): the content below contains the substring
`Skills</b>:a, b,c <br />` (so the marker occurs followed by the segment
`a, b,c <br />`), yet extraction yields `["x"]`, not `["a","b","c"]`,
because only the first marker occurrence is honoured. -/
theorem c1_contains_not_sufficient :
    hasSub (markerL ++ "a, b,c <br />".data)
        "Skills</b>: x<br />Skills</b>:a, b,c <br />".data = true ∧
    itemSkills "Skills</b>: x<br />Skills</b>:a, b,c <br />".data = ["x".data] ∧
    itemSkills "Skills</b>: x<br />Skills</b>:a, b,c <br />".data ≠
      ["a".data, "b".data, "c".data] := by
  decide

/-- C1 (amended): for every item whose content's FIRST occurrence of the
marker `Skills</b>:` is immediately followed by `a, b,c <br />`, the
extract operation yields exactly `["a", "b", "c"]` for that item: the
segment before the first `<br />` is split on commas, each token is
whitespace-trimmed, order is preserved and nothing is filtered out. -/
theorem c1_first_marker_example (content pre suf : List Char)
    (h : splitFirst markerL content = some (pre, "a, b,c <br />".data ++ suf)) :
    itemSkills content = ["a".data, "b".data, "c".data] := by
  have hsplit : "a, b,c <br />".data ++ suf = "a, b,c ".data ++ brL ++ suf := by
    have : "a, b,c <br />".data = "a, b,c ".data ++ brL := by decide
    rw [this, List.append_assoc]
  have hbr : splitFirst brL ("a, b,c ".data ++ brL ++ suf) =
      some ("a, b,c ".data, suf) :=
    splitFirst_clean_prefix '<' "br />".data "a, b,c ".data suf (by decide)
  rw [hsplit] at h
  simp only [itemSkills, h, keepBeforeBr, hbr]
  decide

/-- C1 (witness for the amended theorem). -/
theorem c1_first_marker_example_witness :
    itemSkills "introSkills</b>:a, b,c <br />tail".data =
      ["a".data, "b".data, "c".data] :=
  c1_first_marker_example "introSkills</b>:a, b,c <br />tail".data
    "intro".data "tail".data (by decide)

/-- C2: extraction is total; an item whose content has no `Skills</b>:`
marker contributes zero skills while the other items' contributions are
unaffected, and the overall result may be empty. -/
theorem get_skills_skips_markerless (ch : Channel) (pre post : List Item)
    (bad : Item) (h : hasSub markerL bad.encoded = false) :
    get_skills ⟨ch, pre ++ bad :: post⟩ =
      get_skills ⟨ch, pre⟩ ++ get_skills ⟨ch, post⟩ ∧
    get_skills ⟨ch, [bad]⟩ = [] := by
  have hnone : splitFirst markerL bad.encoded = none := by
    cases hsf : splitFirst markerL bad.encoded with
    | none => rfl
    | some p => simp [hasSub, hsf] at h
  have hitem : itemSkills bad.encoded = [] := by
    simp [itemSkills, hnone]
  constructor
  · simp [get_skills, hitem]
  · simp [get_skills, hitem]

/-- C2 (witness). -/
theorem get_skills_skips_markerless_witness :
    get_skills ⟨⟨[], [], [], []⟩,
        [⟨"Skills</b>:a<br />".data⟩, ⟨"no marker here".data⟩,
         ⟨"Skills</b>:b<br />".data⟩]⟩ =
      get_skills ⟨⟨[], [], [], []⟩, [⟨"Skills</b>:a<br />".data⟩]⟩ ++
        get_skills ⟨⟨[], [], [], []⟩, [⟨"Skills</b>:b<br />".data⟩]⟩ ∧
    get_skills ⟨⟨[], [], [], []⟩, [⟨"no marker here".data⟩]⟩ = [] :=
  get_skills_skips_markerless ⟨[], [], [], []⟩ [⟨"Skills</b>:a<br />".data⟩]
    [⟨"Skills</b>:b<br />".data⟩] ⟨"no marker here".data⟩ (by decide)

/-- C3: a non-200 fetch response makes the invocation return `False`,
with no upload attempted and no archive object produced. -/
theorem lambda_handler_non200 (resp : Response) (clientError : Bool)
    (now : List Char) (h : resp.status_code ≠ 200) :
    (lambda_handler resp clientError now).retval = false ∧
    (lambda_handler resp clientError now).uploaded = none := by
  simp [lambda_handler, get_rss, h]

/-- C3 (witness): a 404 response. -/
theorem lambda_handler_non200_witness :
    (lambda_handler ⟨404, ⟨⟨[], [], [], []⟩, []⟩⟩ false []).retval = false ∧
    (lambda_handler ⟨404, ⟨⟨[], [], [], []⟩, []⟩⟩ false []).uploaded = none :=
  lambda_handler_non200 ⟨404, ⟨⟨[], [], [], []⟩, []⟩⟩ false [] (by decide)

/-- C4: whenever the fetch succeeds the invocation returns `True`, for
either value of the uploader's outcome — the orchestrator never inspects
the boolean `upload_fileobj` returns. -/
theorem lambda_handler_ignores_upload (resp : Response) (jobs : Doc)
    (clientError : Bool) (now : List Char) (h : get_rss resp = some jobs) :
    (lambda_handler resp clientError now).retval = true := by
  simp [lambda_handler, h]

/-- C4 (witness): both an erroring and a non-erroring S3 client leave the
return value `True`. -/
theorem lambda_handler_ignores_upload_witness :
    (lambda_handler ⟨200, ⟨⟨[], [], [], []⟩, []⟩⟩ true []).retval = true ∧
    (lambda_handler ⟨200, ⟨⟨[], [], [], []⟩, []⟩⟩ false []).retval = true :=
  ⟨lambda_handler_ignores_upload ⟨200, ⟨⟨[], [], [], []⟩, []⟩⟩
      ⟨⟨[], [], [], []⟩, []⟩ true [] rfl,
    lambda_handler_ignores_upload ⟨200, ⟨⟨[], [], [], []⟩, []⟩⟩
      ⟨⟨[], [], [], []⟩, []⟩ false [] rfl⟩

/-- C5: for every content record, gzip-compressing its UTF-8 JSON
serialization and then decompressing, UTF-8-decoding and parsing the
result back yields a top-level object with exactly the five keys
`title`, `link`, `description`, `pubdate`, `skills`, whose values equal
those of the original record, `skills` as an array of strings (possibly
containing empty strings, possibly empty overall). -/
theorem archive_roundtrip (r : ContentRecord) :
    gzipDecompress (gzipCompress (utf8Encode (dumps r))) =
      some (utf8Encode (dumps r)) ∧
    utf8Decode (utf8Encode (dumps r)) = dumps r ∧
    loads (dumps r) = some (JVal.obj [
      ("title".data, JVal.str r.title),
      ("link".data, JVal.str r.link),
      ("description".data, JVal.str r.description),
      ("pubdate".data, JVal.str r.pubdate),
      ("skills".data, JVal.arr (r.skills.map JVal.str))]) :=
  ⟨gzip_roundtrip _, utf8_roundtrip_ascii _ (dumps_ascii r), loads_dumps r⟩

/-- C6: every token the extractor appends is the URL-decode of the
candidate followed by a whitespace trim, in candidate order; in
particular the token `C%2B%2B` comes out as `C++`. -/
theorem itemSkills_unquote_strip (content pre rest : List Char)
    (h : splitFirst markerL content = some (pre, rest)) :
    itemSkills content =
      (splitComma (keepBeforeBr rest)).map (fun skill => pyStrip (unquote skill)) ∧
    itemSkills "Skills</b>: C%2B%2B, go<br />".data = ["C++".data, "go".data] := by
  constructor
  · simp [itemSkills, h]
  · decide

/-- C6 (witness). -/
theorem itemSkills_unquote_strip_witness :
    itemSkills "Skills</b>:C%2B%2B<br />".data =
      (splitComma (keepBeforeBr "C%2B%2B<br />".data)).map
        (fun skill => pyStrip (unquote skill)) ∧
    itemSkills "Skills</b>: C%2B%2B, go<br />".data = ["C++".data, "go".data] :=
  itemSkills_unquote_strip "Skills</b>:C%2B%2B<br />".data []
    "C%2B%2B<br />".data (by decide)

/-- C7: when the kept segment (before the first `<br />`) ends in a
comma, the item's skill list ends in the empty string — empty tokens are
not filtered out. -/
theorem itemSkills_trailing_comma (content pre rest seg : List Char)
    (h1 : splitFirst markerL content = some (pre, rest))
    (h2 : keepBeforeBr rest = seg ++ [',']) :
    itemSkills content =
      (splitComma seg).map (fun skill => pyStrip (unquote skill)) ++ [[]] := by
  simp only [itemSkills, h1, h2, splitComma_append_comma, List.map_append]
  rfl

/-- C7 (witness): segment `a,b,`. -/
theorem itemSkills_trailing_comma_witness :
    itemSkills "Skills</b>:a,b,<br />x".data =
      (splitComma "a,b".data).map (fun skill => pyStrip (unquote skill)) ++ [[]] :=
  itemSkills_trailing_comma "Skills</b>:a,b,<br />x".data [] "a,b,<br />x".data
    "a,b".data (by decide) (by decide)

/-- C8: the result of one item depends only on the segment between the
first marker occurrence and the first `<br />` after it; whatever
follows — including further skills-like sections — contributes
nothing. -/
theorem itemSkills_first_only (content pre rest seg tail : List Char)
    (h1 : splitFirst markerL content = some (pre, rest))
    (h2 : splitFirst brL rest = some (seg, tail)) :
    itemSkills content =
      (splitComma seg).map (fun skill => pyStrip (unquote skill)) := by
  simp [itemSkills, h1, keepBeforeBr, h2]

/-- C8 (witness): a second `Skills</b>: … <br />` section is ignored. -/
theorem itemSkills_first_only_witness :
    itemSkills "Skills</b>:a,b<br />Skills</b>:c,d<br />".data =
      (splitComma "a,b".data).map (fun skill => pyStrip (unquote skill)) ∧
    itemSkills "Skills</b>:a,b<br />Skills</b>:c,d<br />".data =
      ["a".data, "b".data] :=
  ⟨itemSkills_first_only "Skills</b>:a,b<br />Skills</b>:c,d<br />".data []
      "a,b<br />Skills</b>:c,d<br />".data "a,b".data
      "Skills</b>:c,d<br />".data (by decide) (by decide),
    by decide⟩

/-- C9: an item whose content has the marker but no `<br />` after it is
not skipped: the whole remainder after the marker is the kept segment,
split on commas, and the item contributes at least one token. -/
theorem itemSkills_no_br (content pre rest : List Char)
    (h1 : splitFirst markerL content = some (pre, rest))
    (h2 : splitFirst brL rest = none) :
    itemSkills content =
      (splitComma rest).map (fun skill => pyStrip (unquote skill)) ∧
    itemSkills content ≠ [] := by
  have heq : itemSkills content =
      (splitComma rest).map (fun skill => pyStrip (unquote skill)) := by
    simp [itemSkills, h1, keepBeforeBr, h2]
  refine ⟨heq, ?_⟩
  rw [heq]
  simpa using splitComma_ne_nil rest

/-- C9 (witness). -/
theorem itemSkills_no_br_witness :
    itemSkills "Skills</b>:a, b".data =
      (splitComma "a, b".data).map (fun skill => pyStrip (unquote skill)) ∧
    itemSkills "Skills</b>:a, b".data ≠ [] :=
  itemSkills_no_br "Skills</b>:a, b".data [] "a, b".data (by decide) (by decide)

/-- C10: a marker immediately followed by `<br />` yields exactly one
token, the empty string — never zero tokens. -/
theorem itemSkills_empty_segment (content pre tail : List Char)
    (h : splitFirst markerL content = some (pre, brL ++ tail)) :
    itemSkills content = [[]] := by
  have hbr : splitFirst brL (brL ++ tail) = some ([], tail) :=
    splitFirst_append_self brL tail (by decide)
  simp only [itemSkills, h, keepBeforeBr, hbr]
  decide

/-- C10 (witness). -/
theorem itemSkills_empty_segment_witness :
    itemSkills "Skills</b>:<br />more".data = [[]] :=
  itemSkills_empty_segment "Skills</b>:<br />more".data [] "more".data (by decide)

end Upwork
